import Mathlib

/-!
Shallow embedding of the mask-to-COCO-geometry codec in
pycococreatortools/pycococreatortools.py, together with proofs about the
run-length encoder, the polygon post-processing pipeline, the connected
component decomposer and the annotation builders.

A 2D binary mask (numpy array) is embedded as a list of rows of booleans.
Third-party library calls with no source in this repository (PIL resize,
skimage find_contours / approximate_polygon / label / regionprops,
pycocotools mask.encode / area / toBbox) are modelled from the spec of
their observable contracts; each such definition carries a doc comment
starting with "Modelled from the spec:".
-/

namespace Pycoco

/-- A binary mask: a list of rows, each row a list of booleans. -/
abbrev Mask := List (List Bool)

/-- Number of rows of a mask (numpy shape component 0). -/
def height (g : Mask) : Nat := g.length

/-- Number of columns of a mask (numpy shape component 1, read off the first row). -/
def width (g : Mask) : Nat := (g.headD []).length

/-- Pixel lookup: row i, column j, background (false) out of range. -/
def getPix (g : Mask) (i j : Nat) : Bool := (g.getD i []).getD j false

/-- A mask is rectangular with h rows and w columns. -/
def Rect (g : Mask) (h w : Nat) : Prop :=
  g.length = h ∧ ∀ row ∈ g, row.length = w

instance (g : Mask) (h w : Nat) : Decidable (Rect g h w) := by
  unfold Rect; infer_instance

/-- Column j of the mask, top to bottom. -/
def colOf (g : Mask) (j : Nat) : List Bool :=
  (List.range (height g)).map (fun i => getPix g i j)

/-- Column-major flattening of a mask: numpy ravel with Fortran order. -/
def ravelF (g : Mask) : List Bool :=
  ((List.range (width g)).map (colOf g)).flatten

/-- Consecutive runs of equal values with their lengths, as produced by
itertools.groupby over the flattened mask. -/
def runs : List Bool → List (Bool × Nat)
  | [] => []
  | a :: l =>
    match runs l with
    | [] => [(a, 1)]
    | (b, n) :: rest => if a = b then (a, n + 1) :: rest else (a, 1) :: (b, n) :: rest

/-- The counts sequence of binary_mask_to_rle: run lengths in order, with a
leading 0 when the first run is foreground. -/
def rleCounts (l : List Bool) : List Nat :=
  match runs l with
  | [] => []
  | (v, n) :: rest => (if v then [0] else []) ++ (n :: rest.map Prod.snd)

/-- The uncompressed RLE record: counts plus size = [height, width]. -/
structure RLE where
  counts : List Nat
  size : List Nat
  deriving DecidableEq, Repr

/-- Embedding of binary_mask_to_rle (pycococreatortools.py lines 25-33). -/
def binary_mask_to_rle (binary_mask : Mask) : RLE :=
  RLE.mk (rleCounts (ravelF binary_mask)) [height binary_mask, width binary_mask]

/-- Expand an alternating run-length list into pixel values, starting with
the given value. -/
def expandRuns : Bool → List Nat → List Bool
  | _, [] => []
  | v, n :: rest => List.replicate n v ++ expandRuns (!v) rest

/-- Modelled from the spec: the RLE decoder, expanding counts as alternating
background and foreground runs starting with background, laid out in
column-major order over the recorded size. -/
def decodeRle (r : RLE) : Mask :=
  let h := r.size.getD 0 0
  let w := r.size.getD 1 0
  let flat := expandRuns false r.counts
  (List.range h).map (fun i => (List.range w).map (fun j => flat.getD (j * h + i) false))

/-- Concatenation of the pixel runs back into the pixel list (proof helper). -/
def expandVals : List (Bool × Nat) → List Bool
  | [] => []
  | (v, n) :: rest => List.replicate n v ++ expandVals rest

/-- A run list alternates values starting from the given value (proof helper). -/
def altFrom : Bool → List (Bool × Nat) → Bool
  | _, [] => true
  | v, (b, _) :: rest => (v == b) && altFrom (!v) rest

/-- Embedding of numpy pad with one ring of background pixels
(pycococreatortools.py line 46). -/
def padMask (g : Mask) : Mask :=
  let pr := List.replicate (width g + 2) false
  (pr :: g.map (fun row => false :: (row ++ [false]))) ++ [pr]

/-- A traced contour: a list of (row, col) coordinates, rationals standing
in for the sub-pixel floating point coordinates. -/
abbrev Contour := List (ℚ × ℚ)

/-- Embedding of close_contour (pycococreatortools.py lines 20-23): append
the first point when the contour is not already closed. -/
def close_contour (contour : Contour) : Contour :=
  match contour with
  | [] => []
  | a :: _ => if contour.getLast? = some a then contour else contour ++ [a]

/-- Embedding of binary_mask_to_polygon (pycococreatortools.py lines 35-60).
The two third-party library calls are passed in as oracle arguments:
find_contours stands for skimage.measure.find_contours (marching-squares
boundary extraction at the 0.5 level) and approximate_polygon for
skimage.measure.approximate_polygon (Douglas-Peucker simplification); the
spec fixes only their observable contracts, so they are kept abstract and
every theorem quantifies over them. The repository code after those calls
is embedded line by line: pad, trace, shift by -1, close, simplify, drop
contours with fewer than 3 points, swap (row, col) to (x, y), flatten and
clamp negative values to 0. -/
def binary_mask_to_polygon
    (find_contours : Mask → ℚ → List Contour)
    (approximate_polygon : Contour → ℚ → Contour)
    (binary_mask : Mask) (tolerance : ℚ) : List (List ℚ) :=
  let padded_binary_mask := padMask binary_mask
  let contours0 := find_contours padded_binary_mask (1 / 2)
  let contours := contours0.map (fun c => c.map (fun p => (p.1 - 1, p.2 - 1)))
  contours.filterMap (fun contour =>
    let contour := close_contour contour
    let contour := approximate_polygon contour tolerance
    if contour.length < 3 then none
    else
      let contour := contour.map (fun p => (p.2, p.1))
      let segmentation := contour.flatMap (fun p => [p.1, p.2])
      some (segmentation.map (fun x => if x < 0 then 0 else x)))

/-- All pixel positions of a mask in row-major scan order. -/
def allPositions (g : Mask) : List (Nat × Nat) :=
  ((List.range (height g)).map (fun i => (List.range (width g)).map (fun j => (i, j)))).flatten

/-- Modelled from the spec: pixel adjacency for skimage.measure.label.
Connectivity 1 is 4-adjacency (orthogonal neighbours only), connectivity 2
is 8-adjacency (orthogonal and diagonal neighbours). -/
def adjacent (conn : Nat) (p q : Nat × Nat) : Bool :=
  let dr := max p.1 q.1 - min p.1 q.1
  let dc := max p.2 q.2 - min p.2 q.2
  decide (dr ≤ 1) && decide (dc ≤ 1) && decide (0 < dr + dc) &&
    (decide (conn ≠ 1) || decide (dr + dc = 1))

/-- One step of connected-component growth: add every foreground position
adjacent to the current set and not yet in it. -/
def growComponent (g : Mask) (conn : Nat) (s : List (Nat × Nat)) : List (Nat × Nat) :=
  s ++ (allPositions g).filter
    (fun q => getPix g q.1 q.2 && !(decide (q ∈ s)) && s.any (fun p => adjacent conn p q))

/-- Modelled from the spec: the connected component of a pixel, a maximal
set of foreground pixels mutually reachable via the chosen adjacency
(skimage.measure.label). Computed by saturating the growth step; height
times width steps always suffice. -/
def componentOf (g : Mask) (conn : Nat) (p : Nat × Nat) : List (Nat × Nat) :=
  Nat.iterate (growComponent g conn) (height g * width g) [p]

/-- One step of the component scan: start a new component at every
foreground pixel not covered by an earlier component. -/
def compStep (g : Mask) (conn : Nat) (acc : List (List (Nat × Nat))) (p : Nat × Nat) :
    List (List (Nat × Nat)) :=
  if getPix g p.1 p.2 && !(acc.any (fun c => decide (p ∈ c))) then
    acc ++ [componentOf g conn p]
  else acc

/-- Modelled from the spec: the ordered connected components of the mask,
discovered in raster scan order as skimage.measure.label assigns labels and
skimage.measure.regionprops lists the regions by label. -/
def components (g : Mask) (conn : Nat) : List (List (Nat × Nat)) :=
  (allPositions g).foldl (compStep g conn) []

/-- A region bounding box in the regionprops convention:
(min_row, min_col, max_row, max_col), the max sides exclusive. -/
structure Box where
  minr : Nat
  minc : Nat
  maxr : Nat
  maxc : Nat
  deriving DecidableEq, Repr

/-- Whether pixel (i, j) lies inside the half-open box. -/
def inBox (b : Box) (i j : Nat) : Bool :=
  decide (b.minr ≤ i ∧ i < b.maxr ∧ b.minc ≤ j ∧ j < b.maxc)

/-- Modelled from the spec: the regionprops bbox of a component, the tight
axis-aligned bounding box of its pixels. -/
def compBBox (c : List (Nat × Nat)) : Box :=
  match c with
  | [] => Box.mk 0 0 0 0
  | p :: rest =>
    Box.mk
      (rest.foldl (fun m q => min m q.1) p.1)
      (rest.foldl (fun m q => min m q.2) p.2)
      (rest.foldl (fun m q => max m q.1) p.1 + 1)
      (rest.foldl (fun m q => max m q.2) p.2 + 1)

/-- Two boxes share no pixel. -/
def boxDisjoint (a b : Box) : Bool :=
  decide (min a.maxr b.maxr ≤ max a.minr b.minr ∨ min a.maxc b.maxc ≤ max a.minc b.minc)

/-- Embedding of the per-region mask construction of create_annotation_infos
(pycococreatortools.py lines 146-156): an all-background grid of the same
shape, with the pixels of the source mask copied inside the bbox slice. -/
def regionMask (g : Mask) (b : Box) : Mask :=
  (List.range (height g)).map (fun i =>
    (List.range (width g)).map (fun j => inBox b i j && getPix g i j))

/-- Embedding of the multi-instance decomposition inside
create_annotation_infos (pycococreatortools.py lines 141-156): one region
mask per connected component, in regionprops order. A connectivity of none
means the skimage default, full 8-connectivity for a 2D image. -/
def decompose (g : Mask) (connectivity : Option Nat) : List Mask :=
  (components g (connectivity.getD 2)).map (fun c => regionMask g (compBBox c))

/-- A value stored in an annotation record field. -/
inductive AnnVal where
  | num (n : Nat)
  | boxV (b : List Nat)
  | rleV (r : RLE)
  | polysV (ps : List (List ℚ))
  deriving DecidableEq, Repr

/-- Category info: an id plus the optional is_crowd entry of the Python
dict (none models a dict without the key). -/
structure CategoryInfo where
  id : Nat
  is_crowd : Option Bool
  deriving DecidableEq, Repr

/-- The Python guard: the is_crowd key is present and truthy. -/
def isCrowdTruthy (category_info : CategoryInfo) : Bool :=
  category_info.is_crowd.getD false

/-- Modelled from the spec: the third-party library calls used by the
annotation builder, passed as oracles. resize_binary_mask stands for the
PIL-based resampler of pycococreatortools.py lines 15-18 (an intensity
resize followed by an implementation-defined threshold back to boolean);
find_contours and approximate_polygon are as in binary_mask_to_polygon. -/
structure Libs where
  resize_binary_mask : Mask → Nat × Nat → Mask
  find_contours : Mask → ℚ → List Contour
  approximate_polygon : Contour → ℚ → Contour

/-- The mask the annotation builder actually encodes: resized when a target
image size is given, the input mask otherwise. -/
def effectiveMask (libs : Libs) (binary_mask : Mask) (image_size : Option (Nat × Nat)) : Mask :=
  match image_size with
  | some sz => libs.resize_binary_mask binary_mask sz
  | none => binary_mask

/-- Modelled from the spec: pycocotools mask.encode followed by mask.area,
the count of foreground pixels implied by the RLE. -/
def maskArea (g : Mask) : Nat := (ravelF g).count true

/-- Modelled from the spec: pycocotools mask.toBbox, the axis-aligned
bounding box [x, y, width, height] of the foreground extent implied by the
RLE; all zero for an empty mask. -/
def toBbox (g : Mask) : List Nat :=
  match (allPositions g).filter (fun p => getPix g p.1 p.2) with
  | [] => [0, 0, 0, 0]
  | p :: rest =>
    let b := compBBox (p :: rest)
    [b.minc, b.minr, b.maxc - b.minc, b.maxr - b.minr]

/-- Embedding of create_annotation_info (pycococreatortools.py lines
79-115): optional resize, RLE-derived area with the area < 1 filter, bbox
defaulting to the RLE-derived box, the crowd / polygon branch with the
empty-polygon filter, and the assembled record as an ordered field list. -/
def create_annotation_info (libs : Libs) (annotation_id image_id : Nat)
    (category_info : CategoryInfo) (binary_mask0 : Mask)
    (image_size : Option (Nat × Nat)) (tolerance : ℚ)
    (bounding_box : Option (List Nat)) : Option (List (String × AnnVal)) :=
  let binary_mask := effectiveMask libs binary_mask0 image_size
  let area := maskArea binary_mask
  if area < 1 then none
  else
    let bounding_box := match bounding_box with
      | some b => b
      | none => toBbox binary_mask
    let branch : Option (Nat × AnnVal) :=
      if isCrowdTruthy category_info then
        some (1, AnnVal.rleV (binary_mask_to_rle binary_mask))
      else
        let segmentation :=
          binary_mask_to_polygon libs.find_contours libs.approximate_polygon binary_mask tolerance
        if segmentation = [] then none
        else some (0, AnnVal.polysV segmentation)
    match branch with
    | none => none
    | some (is_crowd, seg) =>
      some [("id", AnnVal.num annotation_id),
            ("image_id", AnnVal.num image_id),
            ("category_id", AnnVal.num category_info.id),
            ("iscrowd", AnnVal.num is_crowd),
            ("area", AnnVal.num area),
            ("bbox", AnnVal.boxV bounding_box),
            ("segmentation", seg),
            ("width", AnnVal.num (width binary_mask)),
            ("height", AnnVal.num (height binary_mask))]

/-- Embedding of create_annotation_infos (pycococreatortools.py lines
118-167): reject crowd category info, optionally resize, decompose into
per-component region masks, then call create_annotation_info once per
region mask with sequentially incremented ids (enumerate with the given
start), appending every result to the returned list. -/
def create_annotation_infos (libs : Libs) (start_annotation_id image_id : Nat)
    (category_info : CategoryInfo) (binary_mask0 : Mask)
    (image_size : Option (Nat × Nat)) (tolerance : ℚ)
    (connectivity : Option Nat) : Except String (List (Option (List (String × AnnVal)))) :=
  if isCrowdTruthy category_info then
    Except.error "Creating multiple crowd annotations from a single binary mask is not supported"
  else
    let binary_mask := effectiveMask libs binary_mask0 image_size
    let binary_masks := decompose binary_mask connectivity
    Except.ok ((List.range binary_masks.length).map (fun k =>
      create_annotation_info libs (start_annotation_id + k) image_id category_info
        (binary_masks.getD k []) image_size tolerance none))

/-- The 4x4 grid of claim C4: foreground exactly on the 2x2 block at
rows 1-2, columns 1-2 (0-indexed). -/
def gridC4 : Mask :=
  [[false, false, false, false],
   [false, true,  true,  false],
   [false, true,  true,  false],
   [false, false, false, false]]

/-- The 3x3 grid refuting decomposition disjointness: a C-shaped component
whose bounding box is the whole grid, plus the isolated pixel (2, 0). -/
def gridShared : Mask :=
  [[true,  true,  true],
   [false, false, true],
   [true,  false, true]]

/-- A 3x3 grid with two isolated foreground pixels whose component bounding
boxes are disjoint (the third concrete scenario of the spec). -/
def gridTwoDots : Mask :=
  [[true,  false, false],
   [false, false, false],
   [false, false, true]]

/-- Trivial library oracles: identity resize, no contours, identity
simplification. -/
def libsNoContours : Libs :=
  Libs.mk (fun m _ => m) (fun _ _ => []) (fun c _ => c)

/-- Library oracles whose contour tracer reports one fixed square contour
and whose simplifier is the identity. -/
def libsSquare : Libs :=
  Libs.mk (fun m _ => m)
    (fun _ _ => [[((1 : ℚ) / 2, 1 / 2), (1 / 2, 3 / 2), (3 / 2, 3 / 2), (3 / 2, 1 / 2)]])
    (fun c _ => c)

/-- A non-crowd category info (no is_crowd key in the dict). -/
def catPlain : CategoryInfo := CategoryInfo.mk 3 none

/-- A crowd category info (is_crowd key present and truthy). -/
def catCrowd : CategoryInfo := CategoryInfo.mk 7 (some true)

/-- A 1x1 all-foreground mask. -/
def maskOne : Mask := [[true]]

/-- The record produced by the concrete crowd-path call used for the C3
theorems: create_annotation_info with libsNoContours, ids 1 and 2, the
crowd category and the 1x1 mask. -/
def recC3 : List (String × AnnVal) :=
  [("id", AnnVal.num 1), ("image_id", AnnVal.num 2), ("category_id", AnnVal.num 7),
   ("iscrowd", AnnVal.num 1), ("area", AnnVal.num 1), ("bbox", AnnVal.boxV [0, 0, 1, 1]),
   ("segmentation", AnnVal.rleV (RLE.mk [0, 1] [1, 1])), ("width", AnnVal.num 1),
   ("height", AnnVal.num 1)]

/-- C4 counterexample: on the 4x4 grid with the centered 2x2 foreground
block, binary_mask_to_rle does not return counts [5,2,5,2,2] with size
[4,4] as the claim states; the column-major runs are [5,2,2,2,5]. -/
theorem binary_mask_to_rle_c4_counterexample :
    binary_mask_to_rle gridC4 ≠ RLE.mk [5, 2, 5, 2, 2] [4, 4] := by decide

/-- C4 (amended): on the 4x4 grid with the centered 2x2 foreground block,
binary_mask_to_rle returns size [4,4] and counts [5,2,2,2,5] (the correct
column-major alternating run lengths). -/
theorem binary_mask_to_rle_c4 :
    binary_mask_to_rle gridC4 = RLE.mk [5, 2, 2, 2, 5] [4, 4] := by decide

/-! Helper lemmas about run-length encoding. -/

theorem runs_eq_of_runs_nil (a : Bool) (l : List Bool) (h : runs l = []) :
    runs (a :: l) = [(a, 1)] := by
  unfold runs
  rw [h]

theorem runs_eq_of_runs_cons (a b : Bool) (n : Nat) (rest : List (Bool × Nat))
    (l : List Bool) (h : runs l = (b, n) :: rest) :
    runs (a :: l) = if a = b then (a, n + 1) :: rest else (a, 1) :: (b, n) :: rest := by
  unfold runs
  rw [h]

theorem runs_cons_ne_nil (a : Bool) (l : List Bool) : runs (a :: l) ≠ [] := by
  rcases h : runs l with _ | ⟨⟨b, n⟩, rest⟩
  · rw [runs_eq_of_runs_nil a l h]
    simp
  · rw [runs_eq_of_runs_cons a b n rest l h]
    by_cases hab : a = b <;> simp [hab]

theorem runs_cons (a : Bool) (l : List Bool) :
    ∃ n rest, runs (a :: l) = (a, n) :: rest := by
  rcases h : runs l with _ | ⟨⟨b, n⟩, rest⟩
  · exact ⟨1, [], runs_eq_of_runs_nil a l h⟩
  · by_cases hab : a = b
    · subst hab
      exact ⟨n + 1, rest, by rw [runs_eq_of_runs_cons a a n rest l h, if_pos rfl]⟩
    · exact ⟨1, (b, n) :: rest, by rw [runs_eq_of_runs_cons a b n rest l h, if_neg hab]⟩

theorem expandVals_runs (l : List Bool) : expandVals (runs l) = l := by
  induction l with
  | nil => rfl
  | cons a l ih =>
    rcases h : runs l with _ | ⟨⟨b, n⟩, rest⟩
    · have hl : l = [] := by
        cases l with
        | nil => rfl
        | cons x xs => exact absurd h (runs_cons_ne_nil x xs)
      subst hl
      simp [runs, expandVals]
    · rw [h] at ih
      rw [runs_eq_of_runs_cons a b n rest l h]
      by_cases hab : a = b
      · subst hab
        rw [if_pos rfl]
        simp only [expandVals] at ih ⊢
        rw [List.replicate_succ, List.cons_append, ih]
      · rw [if_neg hab]
        simp only [expandVals] at ih ⊢
        rw [ih]
        simp

theorem altFrom_runs (a : Bool) (l : List Bool) : altFrom a (runs (a :: l)) = true := by
  induction l generalizing a with
  | nil => simp [runs, altFrom]
  | cons b l ih =>
    obtain ⟨n, rest, h⟩ := runs_cons b l
    have hb := ih b
    rw [h] at hb
    rw [runs_eq_of_runs_cons a b n rest (b :: l) h]
    by_cases hab : a = b
    · subst hab
      rw [if_pos rfl]
      simp only [altFrom] at hb ⊢
      exact hb
    · rw [if_neg hab]
      simp only [altFrom, beq_self_eq_true, Bool.true_and] at hb ⊢
      cases a <;> cases b <;> simp_all

theorem expandRuns_map_snd (rs : List (Bool × Nat)) (v : Bool) (hv : altFrom v rs = true) :
    expandRuns v (rs.map Prod.snd) = expandVals rs := by
  induction rs generalizing v with
  | nil => rfl
  | cons p rest ih =>
    obtain ⟨b, n⟩ := p
    simp only [altFrom, Bool.and_eq_true, beq_iff_eq] at hv
    obtain ⟨hvb, halt⟩ := hv
    subst hvb
    simp only [List.map_cons, expandRuns, expandVals]
    rw [ih (!v) halt]

theorem expandRuns_rleCounts (l : List Bool) : expandRuns false (rleCounts l) = l := by
  cases l with
  | nil => rfl
  | cons a l =>
    obtain ⟨n, rest, h⟩ := runs_cons a l
    have halt := altFrom_runs a l
    rw [h] at halt
    have hev := expandVals_runs (a :: l)
    rw [h] at hev
    unfold rleCounts
    rw [h]
    cases a with
    | false =>
      simpa using (expandRuns_map_snd ((false, n) :: rest) false halt).trans hev
    | true =>
      simp only [if_pos rfl, List.singleton_append, expandRuns, List.replicate_zero,
        List.nil_append]
      exact (expandRuns_map_snd ((true, n) :: rest) true halt).trans hev

theorem expandVals_length (rs : List (Bool × Nat)) :
    (expandVals rs).length = (rs.map Prod.snd).sum := by
  induction rs with
  | nil => rfl
  | cons p rest ih =>
    obtain ⟨b, n⟩ := p
    simp [expandVals, ih]

theorem rleCounts_sum (l : List Bool) : (rleCounts l).sum = l.length := by
  cases l with
  | nil => rfl
  | cons a l =>
    obtain ⟨n, rest, h⟩ := runs_cons a l
    have hev := expandVals_runs (a :: l)
    rw [h] at hev
    have hsum : (((a, n) :: rest).map Prod.snd).sum = (a :: l).length := by
      rw [← expandVals_length, hev]
    unfold rleCounts
    rw [h]
    cases a <;> simp_all

/-! Helper lemmas about the column-major flattening. -/

theorem flatten_getD_chunk (hgt : Nat) (cols : List (List Bool)) :
    ∀ (k i : Nat), (∀ c ∈ cols, c.length = hgt) → i < hgt → k < cols.length →
      cols.flatten.getD (k * hgt + i) false = (cols.getD k []).getD i false := by
  induction cols with
  | nil =>
    intro k i _ _ hk
    simp at hk
  | cons c rest ih =>
    intro k i hc hi hk
    have hcl : c.length = hgt := hc c (List.mem_cons_self c rest)
    cases k with
    | zero =>
      rw [List.flatten_cons, List.getD_append _ _ _ _ (by omega)]
      simp
    | succ k =>
      have hpos : (k + 1) * hgt + i = c.length + (k * hgt + i) := by
        rw [hcl, Nat.succ_mul]
        ring
      rw [List.flatten_cons, hpos,
        List.getD_append_right _ _ _ _ (Nat.le_add_right _ _), Nat.add_sub_cancel_left]
      have := ih k i (fun x hx => hc x (List.mem_cons_of_mem c hx)) hi (by simpa using hk)
      simpa using this

theorem ravelF_getD (g : Mask) (i j : Nat) (hi : i < height g) (hj : j < width g) :
    (ravelF g).getD (j * height g + i) false = getPix g i j := by
  unfold ravelF
  rw [flatten_getD_chunk (height g) _ j i ?_ hi ?_]
  · have hcol : ((List.range (width g)).map (colOf g)).getD j [] = colOf g j := by
      rw [List.getD_eq_getElem?_getD, List.getElem?_map, List.getElem?_range hj]
      rfl
    rw [hcol]
    unfold colOf
    rw [List.getD_eq_getElem?_getD, List.getElem?_map, List.getElem?_range hi]
    rfl
  · intro c hc
    simp only [List.mem_map] at hc
    obtain ⟨j2, _, rfl⟩ := hc
    simp [colOf]
  · simpa using hj

theorem width_rect (g : Mask) (h w : Nat) (hg : Rect g h w) (hne : g ≠ []) : width g = w := by
  obtain ⟨_, hrow⟩ := hg
  cases g with
  | nil => exact absurd rfl hne
  | cons r rest => exact hrow r (List.mem_cons_self r rest)

theorem ravelF_length (g : Mask) : (ravelF g).length = width g * height g := by
  unfold ravelF
  rw [List.length_flatten, List.map_map]
  have hconst : (List.length ∘ colOf g) = Function.const Nat (height g) := by
    funext j
    simp [colOf, Function.const]
  rw [hconst, List.map_const, List.sum_replicate]
  simp [mul_comm]

theorem getPix_eq_getElem (g : Mask) (i j : Nat) (hi : i < g.length)
    (hj : j < g[i].length) : getPix g i j = g[i][j] := by
  unfold getPix
  rw [List.getD_eq_getElem?_getD g i [], List.getElem?_eq_getElem hi, Option.getD_some,
    List.getD_eq_getElem?_getD, List.getElem?_eq_getElem hj, Option.getD_some]

/-- C5: decoding the RLE record produced by binary_mask_to_rle, expanding
counts as alternating background and foreground runs starting with
background in column-major order over the recorded size, reproduces the
original rectangular grid exactly. -/
theorem decodeRle_roundtrip (g : Mask) (h w : Nat) (hg : Rect g h w) :
    decodeRle (binary_mask_to_rle g) = g := by
  cases g with
  | nil => rfl
  | cons r rest =>
    obtain ⟨hlen, hrow⟩ := hg
    unfold decodeRle binary_mask_to_rle
    simp only [List.getD_cons_zero, List.getD_cons_succ]
    rw [expandRuns_rleCounts]
    apply List.ext_getElem
    · simp [height]
    · intro i h1 h2
      rw [List.getElem_map, List.getElem_range]
      apply List.ext_getElem
      · have hmem : (r :: rest)[i] ∈ r :: rest := List.getElem_mem h2
        simp only [List.length_map, List.length_range]
        rw [hrow _ hmem]
        have hwr : width (r :: rest) = w := hrow r (List.mem_cons_self r rest)
        exact hwr
      · intro jj hh1 hh2
        rw [List.getElem_map, List.getElem_range]
        have hii : i < height (r :: rest) := by simpa [height] using h2
        have hjj : jj < width (r :: rest) := by simpa using hh1
        rw [ravelF_getD (r :: rest) i jj hii hjj]
        exact getPix_eq_getElem (r :: rest) i jj h2 hh2

/-- C5 witness: the round-trip theorem applied to the concrete 4x4 grid. -/
theorem decodeRle_roundtrip_witness :
    Rect gridC4 4 4 ∧ decodeRle (binary_mask_to_rle gridC4) = gridC4 :=
  ⟨by decide, decodeRle_roundtrip gridC4 4 4 (by decide)⟩

/-- C6: when the first column-major pixel of the grid is foreground, the
counts sequence produced by binary_mask_to_rle starts with 0, preserving
the background-first alternation convention. -/
theorem rle_leading_zero (g : Mask) (hfg : getPix g 0 0 = true) :
    (binary_mask_to_rle g).counts.head? = some 0 := by
  have hh : 0 < height g := by
    cases g with
    | nil => simp [getPix] at hfg
    | cons r rest => simp [height]
  have hw : 0 < width g := by
    cases g with
    | nil => simp [getPix] at hfg
    | cons r rest =>
      cases r with
      | nil => simp [getPix] at hfg
      | cons x xs => simp [width]
  have h0 : (ravelF g).getD 0 false = true := by
    have h1 := ravelF_getD g 0 0 hh hw
    rw [hfg] at h1
    simpa using h1
  cases hflat : ravelF g with
  | nil =>
    rw [hflat] at h0
    simp at h0
  | cons x t =>
    rw [hflat] at h0
    simp only [List.getD_cons_zero] at h0
    subst h0
    unfold binary_mask_to_rle
    simp only
    rw [hflat]
    obtain ⟨n, rest, hr⟩ := runs_cons true t
    unfold rleCounts
    rw [hr]
    simp

/-- C6 witness: a 2x2 grid whose pixel (0, 0) is foreground. -/
theorem rle_leading_zero_witness :
    getPix [[true, false], [false, false]] 0 0 = true ∧
      (binary_mask_to_rle [[true, false], [false, false]]).counts.head? = some 0 :=
  ⟨by decide, rle_leading_zero [[true, false], [false, false]] (by decide)⟩

/-- C7: for every rectangular grid of size at least 1x1, the counts of the
RLE record produced by binary_mask_to_rle sum to height times width. -/
theorem rle_sum_invariant (g : Mask) (h w : Nat) (hg : Rect g h w)
    (hh : 1 ≤ h) (hw : 1 ≤ w) :
    (binary_mask_to_rle g).counts.sum = h * w := by
  have hne : g ≠ [] := by
    intro e
    rw [e] at hg
    simp [Rect] at hg
    omega
  unfold binary_mask_to_rle
  simp only
  rw [rleCounts_sum, ravelF_length, width_rect g h w hg hne]
  have hht : height g = h := hg.1
  rw [hht, mul_comm]

/-- C7 witness: the sum invariant on the concrete 4x4 grid. -/
theorem rle_sum_invariant_witness :
    Rect gridC4 4 4 ∧ 1 ≤ 4 ∧ (binary_mask_to_rle gridC4).counts.sum = 4 * 4 :=
  ⟨by decide, by decide, rle_sum_invariant gridC4 4 4 (by decide) (by decide) (by decide)⟩

/-! Helper lemmas about the polygon post-processing pipeline. -/

theorem flatMap_pair_length (l : List (ℚ × ℚ)) :
    (l.flatMap (fun p => [p.1, p.2])).length = 2 * l.length := by
  induction l with
  | nil => rfl
  | cons p rest ih =>
    rw [List.flatMap_cons, List.length_append, ih]
    simp only [List.length_cons, List.length_nil, List.length_cons]
    omega

/-- C8: every polygon returned by binary_mask_to_polygon, for every mask,
every non-negative tolerance and every behaviour of the third-party contour
tracer and simplifier, is a flat coordinate list of even length at least 6
(at least 3 vertices) whose entries are all non-negative. -/
theorem binary_mask_to_polygon_valid
    (find_contours : Mask → ℚ → List Contour)
    (approximate_polygon : Contour → ℚ → Contour)
    (binary_mask : Mask) (tolerance : ℚ) (htol : 0 ≤ tolerance) :
    ∀ poly ∈ binary_mask_to_polygon find_contours approximate_polygon binary_mask tolerance,
      poly.length % 2 = 0 ∧ 6 ≤ poly.length ∧ ∀ x ∈ poly, 0 ≤ x := by
  intro poly hmem
  unfold binary_mask_to_polygon at hmem
  simp only [List.mem_filterMap] at hmem
  obtain ⟨contour, hc, hpoly⟩ := hmem
  by_cases hlen :
      (approximate_polygon (close_contour contour) tolerance).length < 3
  · rw [if_pos hlen] at hpoly
    cases hpoly
  · rw [if_neg hlen] at hpoly
    rw [Option.some.injEq] at hpoly
    subst hpoly
    have hlen2 :
        (((approximate_polygon (close_contour contour) tolerance).map
            (fun p => (p.2, p.1))).flatMap (fun p => [p.1, p.2])).length =
          2 * (approximate_polygon (close_contour contour) tolerance).length := by
      rw [flatMap_pair_length, List.length_map]
    refine ⟨?_, ?_, ?_⟩
    · rw [List.length_map, hlen2]
      omega
    · rw [List.length_map, hlen2]
      omega
    · intro x hx
      simp only [List.mem_map] at hx
      obtain ⟨y, _, rfl⟩ := hx
      by_cases hy : y < 0
      · rw [if_pos hy]
      · rw [if_neg hy]
        exact le_of_not_lt hy

/-- C8 witness: the validity theorem applied to a concrete mask, tolerance
0 and the fixed-square contour oracles. -/
theorem binary_mask_to_polygon_valid_witness :
    (0 : ℚ) ≤ 0 ∧
      ∀ poly ∈ binary_mask_to_polygon libsSquare.find_contours
          libsSquare.approximate_polygon maskOne 0,
        poly.length % 2 = 0 ∧ 6 ≤ poly.length ∧ ∀ x ∈ poly, 0 ≤ x :=
  ⟨le_refl 0,
    binary_mask_to_polygon_valid libsSquare.find_contours libsSquare.approximate_polygon
      maskOne 0 (le_refl 0)⟩

/-! Helper lemmas about the connected component decomposition. -/

theorem getD_map_range {α : Type _} (f : Nat → α) (n k : Nat) (d : α) :
    ((List.range n).map f).getD k d = if k < n then f k else d := by
  rw [List.getD_eq_getElem?_getD, List.getElem?_map]
  by_cases hk : k < n
  · rw [List.getElem?_range hk]
    simp [hk]
  · rw [List.getElem?_eq_none (by simpa using Nat.le_of_not_lt hk)]
    simp [hk]

theorem getPix_true_bounds (g : Mask) (i j : Nat) (h : getPix g i j = true) :
    i < g.length ∧ j < (g.getD i []).length := by
  unfold getPix at h
  refine ⟨?_, ?_⟩
  · by_contra hi
    push_neg at hi
    rw [List.getD_eq_default g [] hi] at h
    simp at h
  · by_contra hj
    push_neg at hj
    rw [List.getD_eq_default _ false hj] at h
    simp at h

theorem getPix_true_lt (g : Mask) (h w : Nat) (hg : Rect g h w) (i j : Nat)
    (hfg : getPix g i j = true) : i < height g ∧ j < width g := by
  obtain ⟨hi, hj⟩ := getPix_true_bounds g i j hfg
  refine ⟨hi, ?_⟩
  have hmem : g.getD i [] ∈ g := by
    rw [List.getD_eq_getElem _ _ hi]
    exact List.getElem_mem hi
  have hlenw : (g.getD i []).length = w := hg.2 _ hmem
  rw [hlenw] at hj
  rwa [width_rect g h w hg (by intro e; subst e; simp at hi)]

theorem mem_allPositions (g : Mask) (i j : Nat) (hi : i < height g) (hj : j < width g) :
    (i, j) ∈ allPositions g := by
  unfold allPositions
  rw [List.mem_flatten]
  refine ⟨(List.range (width g)).map (fun j => (i, j)), ?_, ?_⟩
  · simp only [List.mem_map]
    exact ⟨i, by simpa [List.mem_range] using hi, rfl⟩
  · simp only [List.mem_map]
    exact ⟨j, by simpa [List.mem_range] using hj, rfl⟩

theorem mem_iterate_grow (g : Mask) (conn : Nat) (n : Nat) (s : List (Nat × Nat))
    (p : Nat × Nat) (hp : p ∈ s) :
    p ∈ Nat.iterate (growComponent g conn) n s := by
  induction n generalizing s with
  | zero => exact hp
  | succ n ih =>
    rw [Function.iterate_succ_apply]
    apply ih
    unfold growComponent
    exact List.mem_append_left _ hp

theorem mem_componentOf (g : Mask) (conn : Nat) (p : Nat × Nat) :
    p ∈ componentOf g conn p := by
  unfold componentOf
  exact mem_iterate_grow g conn _ [p] p (List.mem_cons_self p [])

theorem mem_foldl_compStep (g : Mask) (conn : Nat) (l : List (Nat × Nat))
    (acc : List (List (Nat × Nat))) (c : List (Nat × Nat)) (hc : c ∈ acc) :
    c ∈ l.foldl (compStep g conn) acc := by
  induction l generalizing acc with
  | nil => exact hc
  | cons q l ih =>
    rw [List.foldl_cons]
    apply ih
    unfold compStep
    split
    · exact List.mem_append_left _ hc
    · exact hc

theorem cover_foldl (g : Mask) (conn : Nat) (l : List (Nat × Nat))
    (acc : List (List (Nat × Nat))) (p : Nat × Nat) (hp : p ∈ l)
    (hfg : getPix g p.1 p.2 = true) :
    ∃ c ∈ l.foldl (compStep g conn) acc, p ∈ c := by
  induction l generalizing acc with
  | nil => cases hp
  | cons q l ih =>
    rw [List.foldl_cons]
    rcases List.mem_cons.mp hp with rfl | hpl
    · by_cases hcov : ∃ c ∈ acc, p ∈ c
      · obtain ⟨c, hca, hpc⟩ := hcov
        have hcs : c ∈ compStep g conn acc p := by
          unfold compStep
          split
          · exact List.mem_append_left _ hca
          · exact hca
        exact ⟨c, mem_foldl_compStep g conn l _ c hcs, hpc⟩
      · have hnc : (acc.any (fun c => decide (p ∈ c))) = false := by
          rw [List.any_eq_false]
          intro c hca
          simp only [decide_eq_true_eq]
          intro hpc
          exact hcov ⟨c, hca, hpc⟩
        have hstep : compStep g conn acc p = acc ++ [componentOf g conn p] := by
          unfold compStep
          rw [hfg, hnc]
          simp
        rw [hstep]
        refine ⟨componentOf g conn p, ?_, mem_componentOf g conn p⟩
        apply mem_foldl_compStep
        simp
    · exact ih _ hpl

theorem components_cover (g : Mask) (h w : Nat) (conn : Nat) (hg : Rect g h w)
    (i j : Nat) (hfg : getPix g i j = true) :
    ∃ c ∈ components g conn, (i, j) ∈ c := by
  obtain ⟨hi, hj⟩ := getPix_true_lt g h w hg i j hfg
  unfold components
  exact cover_foldl g conn _ [] (i, j) (mem_allPositions g i j hi hj) hfg

theorem foldl_min_le_init (l : List (Nat × Nat)) (f : Nat × Nat → Nat) (a : Nat) :
    l.foldl (fun m q => min m (f q)) a ≤ a := by
  induction l generalizing a with
  | nil => exact le_refl a
  | cons q l ih =>
    rw [List.foldl_cons]
    exact le_trans (ih (min a (f q))) (min_le_left _ _)

theorem foldl_min_le_mem (l : List (Nat × Nat)) (f : Nat × Nat → Nat) (a : Nat)
    (x : Nat × Nat) (hx : x ∈ l) :
    l.foldl (fun m q => min m (f q)) a ≤ f x := by
  induction l generalizing a with
  | nil => cases hx
  | cons q l ih =>
    rw [List.foldl_cons]
    rcases List.mem_cons.mp hx with rfl | hxl
    · exact le_trans (foldl_min_le_init l f _) (min_le_right _ _)
    · exact ih _ hxl

theorem le_foldl_max_init (l : List (Nat × Nat)) (f : Nat × Nat → Nat) (a : Nat) :
    a ≤ l.foldl (fun m q => max m (f q)) a := by
  induction l generalizing a with
  | nil => exact le_refl a
  | cons q l ih =>
    rw [List.foldl_cons]
    exact le_trans (le_max_left _ _) (ih (max a (f q)))

theorem le_foldl_max_mem (l : List (Nat × Nat)) (f : Nat × Nat → Nat) (a : Nat)
    (x : Nat × Nat) (hx : x ∈ l) :
    f x ≤ l.foldl (fun m q => max m (f q)) a := by
  induction l generalizing a with
  | nil => cases hx
  | cons q l ih =>
    rw [List.foldl_cons]
    rcases List.mem_cons.mp hx with rfl | hxl
    · exact le_trans (le_max_right _ _) (le_foldl_max_init l f _)
    · exact ih _ hxl

theorem mem_compBBox (c : List (Nat × Nat)) (q : Nat × Nat) (hq : q ∈ c) :
    inBox (compBBox c) q.1 q.2 = true := by
  cases c with
  | nil => cases hq
  | cons p rest =>
    unfold compBBox inBox
    simp only [decide_eq_true_eq]
    rcases List.mem_cons.mp hq with heq | hqr
    · subst heq
      have h1 := foldl_min_le_init rest Prod.fst q.1
      have h2 := le_foldl_max_init rest Prod.fst q.1
      have h3 := foldl_min_le_init rest Prod.snd q.2
      have h4 := le_foldl_max_init rest Prod.snd q.2
      exact ⟨h1, by omega, h3, by omega⟩
    · have h1 := foldl_min_le_mem rest Prod.fst p.1 q hqr
      have h2 := le_foldl_max_mem rest Prod.fst p.1 q hqr
      have h3 := foldl_min_le_mem rest Prod.snd p.2 q hqr
      have h4 := le_foldl_max_mem rest Prod.snd p.2 q hqr
      exact ⟨h1, by omega, h3, by omega⟩

theorem getPix_regionMask (g : Mask) (b : Box) (i j : Nat) :
    getPix (regionMask g b) i j =
      (decide (i < height g) && decide (j < width g) && inBox b i j && getPix g i j) := by
  show ((regionMask g b).getD i []).getD j false = _
  unfold regionMask
  rw [getD_map_range]
  by_cases hi : i < height g
  · rw [if_pos hi, getD_map_range]
    by_cases hj : j < width g
    · rw [if_pos hj]
      simp [hi, hj]
    · rw [if_neg hj]
      simp [hi, hj]
  · rw [if_neg hi]
    simp [hi]

theorem boxDisjoint_not_both (a b : Box) (hd : boxDisjoint a b = true) (i j : Nat) :
    ¬(inBox a i j = true ∧ inBox b i j = true) := by
  unfold boxDisjoint at hd
  unfold inBox
  simp only [decide_eq_true_eq] at hd ⊢
  rintro ⟨⟨h1, h2, h3, h4⟩, ⟨h5, h6, h7, h8⟩⟩
  omega

/-- C1 counterexample: on the 3x3 mask with a C-shaped component (whose
bounding box is the whole grid) and the isolated pixel (2, 0), the
multi-instance decomposition of create_annotation_infos builds two
component grids that both contain the foreground pixel (2, 0): the
component grids are not pairwise disjoint, because the bbox slice copy
takes every source pixel inside the bounding box, including pixels of
other components. -/
theorem decompose_shared_pixel_counterexample :
    2 ≤ (decompose gridShared none).length ∧
    getPix ((decompose gridShared none).getD 0 []) 2 0 = true ∧
    getPix ((decompose gridShared none).getD 1 []) 2 0 = true := by decide

/-- C1 (amended): for every rectangular mask, the union of the component
grids built by the multi-instance decomposition of create_annotation_infos
equals the original foreground pixel set; and the component grids are
pairwise disjoint whenever the bounding boxes of the discovered components
are pairwise disjoint (they can share foreground pixels otherwise, as the
counterexample shows, since each grid is the source mask restricted to the
bounding box of its component). -/
theorem decompose_union_disjoint (g : Mask) (h w : Nat) (conn : Option Nat)
    (hg : Rect g h w) :
    (∀ i j, getPix g i j = true ↔ ∃ m ∈ decompose g conn, getPix m i j = true) ∧
    (((components g (conn.getD 2)).map compBBox).Pairwise
        (fun a b => boxDisjoint a b = true) →
      (decompose g conn).Pairwise
        (fun m1 m2 => ∀ i j, ¬(getPix m1 i j = true ∧ getPix m2 i j = true))) := by
  constructor
  · intro i j
    constructor
    · intro hfg
      obtain ⟨c, hcm, hpc⟩ := components_cover g h w (conn.getD 2) hg i j hfg
      refine ⟨regionMask g (compBBox c), List.mem_map_of_mem _ hcm, ?_⟩
      rw [getPix_regionMask]
      obtain ⟨hi, hj⟩ := getPix_true_lt g h w hg i j hfg
      have hbox := mem_compBBox c (i, j) hpc
      simp only at hbox
      simp [hi, hj, hbox, hfg]
    · rintro ⟨m, hm, hpix⟩
      unfold decompose at hm
      obtain ⟨c, _, rfl⟩ := List.mem_map.mp hm
      rw [getPix_regionMask] at hpix
      simp only [Bool.and_eq_true] at hpix
      exact hpix.2
  · intro hpair
    unfold decompose
    rw [List.pairwise_map]
    rw [List.pairwise_map] at hpair
    refine hpair.imp ?_
    intro c1 c2 hd i j hboth
    obtain ⟨h1, h2⟩ := hboth
    rw [getPix_regionMask] at h1 h2
    simp only [Bool.and_eq_true] at h1 h2
    exact boxDisjoint_not_both (compBBox c1) (compBBox c2) hd i j ⟨h1.1.2, h2.1.2⟩

/-- C1 witness: the amended theorem applied to the 3x3 two-dot grid, whose
two component bounding boxes are disjoint. -/
theorem decompose_union_disjoint_witness :
    Rect gridTwoDots 3 3 ∧
    ((∀ i j, getPix gridTwoDots i j = true ↔
        ∃ m ∈ decompose gridTwoDots none, getPix m i j = true) ∧
      (((components gridTwoDots ((none : Option Nat).getD 2)).map compBBox).Pairwise
          (fun a b => boxDisjoint a b = true) →
        (decompose gridTwoDots none).Pairwise
          (fun m1 m2 => ∀ i j, ¬(getPix m1 i j = true ∧ getPix m2 i j = true)))) :=
  ⟨by decide, decompose_union_disjoint gridTwoDots 3 3 none (by decide)⟩

/-! Theorems about the annotation builders. -/

/-- C10: create_annotation_info signals degenerate inputs by returning no
record rather than raising (the embedding is a total function into an
option): it returns none exactly when the RLE-derived area of the possibly
resized mask is zero, or, on the non-crowd path, when the polygon list of
that mask is empty; in every other case it returns an annotation record. -/
theorem create_annotation_info_none_iff (libs : Libs) (annotation_id image_id : Nat)
    (category_info : CategoryInfo) (binary_mask0 : Mask)
    (image_size : Option (Nat × Nat)) (tolerance : ℚ)
    (bounding_box : Option (List Nat)) :
    create_annotation_info libs annotation_id image_id category_info binary_mask0
        image_size tolerance bounding_box = none ↔
      (maskArea (effectiveMask libs binary_mask0 image_size) = 0 ∨
        (isCrowdTruthy category_info = false ∧
          binary_mask_to_polygon libs.find_contours libs.approximate_polygon
            (effectiveMask libs binary_mask0 image_size) tolerance = [])) := by
  unfold create_annotation_info
  dsimp only
  by_cases ha : maskArea (effectiveMask libs binary_mask0 image_size) < 1
  · rw [if_pos ha]
    simp [Nat.lt_one_iff.mp ha]
  · rw [if_neg ha]
    have ha0 : ¬maskArea (effectiveMask libs binary_mask0 image_size) = 0 := by omega
    by_cases hc : isCrowdTruthy category_info
    · rw [if_pos hc]
      simp [hc, ha0]
    · rw [if_neg hc]
      have hc2 : isCrowdTruthy category_info = false := by simpa using hc
      by_cases hs : binary_mask_to_polygon libs.find_contours libs.approximate_polygon
          (effectiveMask libs binary_mask0 image_size) tolerance = []
      · rw [if_pos hs]
        simp [hs, ha0, hc2]
      · rw [if_neg hs]
        simp [hs, ha0, hc2]

/-- C3 counterexample: the record returned by a concrete crowd-path call of
create_annotation_info has no field named is_crowd; the crowd-flag field of
the assembled record is spelled iscrowd. -/
theorem create_annotation_info_no_is_crowd_field :
    create_annotation_info libsNoContours 1 2 catCrowd maskOne none 2 none = some recC3 ∧
      "is_crowd" ∉ recC3.map Prod.fst :=
  ⟨rfl, by decide⟩

/-- C3 (amended): every record returned by create_annotation_info has
exactly the nine fields id, image_id, category_id, iscrowd, area, bbox,
segmentation, width and height, in this order; the crowd-flag field is
named iscrowd (not is_crowd as the claim states), and its value is 1 with
an RLE segmentation on the crowd path and 0 with a non-empty polygon-list
segmentation on the non-crowd path. -/
theorem create_annotation_info_fields (libs : Libs) (annotation_id image_id : Nat)
    (category_info : CategoryInfo) (binary_mask0 : Mask)
    (image_size : Option (Nat × Nat)) (tolerance : ℚ)
    (bounding_box : Option (List Nat)) (rec : List (String × AnnVal))
    (hres : create_annotation_info libs annotation_id image_id category_info binary_mask0
      image_size tolerance bounding_box = some rec) :
    rec.map Prod.fst =
      ["id", "image_id", "category_id", "iscrowd", "area", "bbox", "segmentation",
        "width", "height"] ∧
    ∃ icv seg,
      rec.getD 3 ("", AnnVal.num 0) = ("iscrowd", AnnVal.num icv) ∧
      rec.getD 6 ("", AnnVal.num 0) = ("segmentation", seg) ∧
      (icv = 0 ∨ icv = 1) ∧
      (isCrowdTruthy category_info = true → icv = 1 ∧ ∃ r, seg = AnnVal.rleV r) ∧
      (isCrowdTruthy category_info = false →
        icv = 0 ∧ ∃ ps, seg = AnnVal.polysV ps ∧ ps ≠ []) := by
  unfold create_annotation_info at hres
  dsimp only at hres
  by_cases ha : maskArea (effectiveMask libs binary_mask0 image_size) < 1
  · rw [if_pos ha] at hres
    cases hres
  · rw [if_neg ha] at hres
    by_cases hc : isCrowdTruthy category_info
    · rw [if_pos hc] at hres
      rw [Option.some.injEq] at hres
      subst hres
      refine ⟨rfl, 1, AnnVal.rleV (binary_mask_to_rle (effectiveMask libs binary_mask0
        image_size)), rfl, rfl, Or.inr rfl, fun _ => ⟨rfl, _, rfl⟩, fun hfalse => ?_⟩
      rw [hc] at hfalse
      cases hfalse
    · rw [if_neg hc] at hres
      have hc2 : isCrowdTruthy category_info = false := by simpa using hc
      by_cases hs : binary_mask_to_polygon libs.find_contours libs.approximate_polygon
          (effectiveMask libs binary_mask0 image_size) tolerance = []
      · rw [if_pos hs] at hres
        cases hres
      · rw [if_neg hs] at hres
        rw [Option.some.injEq] at hres
        subst hres
        refine ⟨rfl, 0, AnnVal.polysV (binary_mask_to_polygon libs.find_contours
          libs.approximate_polygon (effectiveMask libs binary_mask0 image_size) tolerance),
          rfl, rfl, Or.inl rfl, fun htrue => ?_, fun _ => ⟨rfl, _, rfl, hs⟩⟩
        rw [hc2] at htrue
        cases htrue

/-- C3 witness: the amended field theorem applied to the concrete
crowd-path call, whose record is recC3. -/
theorem create_annotation_info_fields_witness :
    recC3.map Prod.fst =
      ["id", "image_id", "category_id", "iscrowd", "area", "bbox", "segmentation",
        "width", "height"] ∧
    ∃ icv seg,
      recC3.getD 3 ("", AnnVal.num 0) = ("iscrowd", AnnVal.num icv) ∧
      recC3.getD 6 ("", AnnVal.num 0) = ("segmentation", seg) ∧
      (icv = 0 ∨ icv = 1) ∧
      (isCrowdTruthy catCrowd = true → icv = 1 ∧ ∃ r, seg = AnnVal.rleV r) ∧
      (isCrowdTruthy catCrowd = false →
        icv = 0 ∧ ∃ ps, seg = AnnVal.polysV ps ∧ ps ≠ []) :=
  create_annotation_info_fields libsNoContours 1 2 catCrowd maskOne none 2 none recC3 rfl

/-- C9: for every mask and every call configuration, when the category info
has a truthy is_crowd flag, create_annotation_infos fails immediately with
the explicit not-supported error and returns no annotations. -/
theorem create_annotation_infos_crowd_rejected (libs : Libs)
    (start_annotation_id image_id : Nat) (category_info : CategoryInfo)
    (binary_mask0 : Mask) (image_size : Option (Nat × Nat)) (tolerance : ℚ)
    (connectivity : Option Nat) (hcrowd : isCrowdTruthy category_info = true) :
    create_annotation_infos libs start_annotation_id image_id category_info binary_mask0
        image_size tolerance connectivity =
      Except.error
        "Creating multiple crowd annotations from a single binary mask is not supported" := by
  unfold create_annotation_infos
  rw [if_pos hcrowd]

/-- C9 witness: the crowd rejection theorem applied to the concrete crowd
category and the 1x1 mask. -/
theorem create_annotation_infos_crowd_rejected_witness :
    isCrowdTruthy catCrowd = true ∧
    create_annotation_infos libsNoContours 1 2 catCrowd maskOne none 2 none =
      Except.error
        "Creating multiple crowd annotations from a single binary mask is not supported" :=
  ⟨rfl, create_annotation_infos_crowd_rejected libsNoContours 1 2 catCrowd maskOne
    none 2 none rfl⟩

theorem create_annotation_info_id_mem (libs : Libs) (annotation_id image_id : Nat)
    (category_info : CategoryInfo) (binary_mask0 : Mask)
    (image_size : Option (Nat × Nat)) (tolerance : ℚ)
    (bounding_box : Option (List Nat)) (rec : List (String × AnnVal))
    (h : create_annotation_info libs annotation_id image_id category_info binary_mask0
      image_size tolerance bounding_box = some rec) :
    ("id", AnnVal.num annotation_id) ∈ rec := by
  unfold create_annotation_info at h
  dsimp only at h
  by_cases ha : maskArea (effectiveMask libs binary_mask0 image_size) < 1
  · rw [if_pos ha] at h
    cases h
  · rw [if_neg ha] at h
    by_cases hc : isCrowdTruthy category_info
    · rw [if_pos hc] at h
      rw [Option.some.injEq] at h
      subst h
      simp
    · rw [if_neg hc] at h
      by_cases hs : binary_mask_to_polygon libs.find_contours libs.approximate_polygon
          (effectiveMask libs binary_mask0 image_size) tolerance = []
      · rw [if_pos hs] at h
        cases h
      · rw [if_neg hs] at h
        rw [Option.some.injEq] at h
        subst h
        simp

/-- C2 counterexample: with a non-crowd category and a contour tracer that
reports no contours, the single connected component of the 1x1 foreground
mask yields no annotation record, and create_annotation_infos returns the
list [none]: the component is not omitted, an absence placeholder appears
in the returned sequence. -/
theorem create_annotation_infos_placeholder_counterexample :
    (decompose (effectiveMask libsNoContours maskOne none) none).length = 1 ∧
    create_annotation_infos libsNoContours 5 2 catPlain maskOne none 2 none =
      Except.ok [none] :=
  ⟨rfl, rfl⟩

/-- C2 (amended): on a non-crowd call, create_annotation_infos returns ok
with exactly one entry per connected component, in order: entry k is the
result of create_annotation_info on component grid k with id start + k.
Hence a component yielding no record contributes a none placeholder at its
position rather than being omitted, ids are allocated sequentially per
attempted component, and every record present carries its allocated id
start + k. -/
theorem create_annotation_infos_per_component (libs : Libs)
    (start_annotation_id image_id : Nat) (category_info : CategoryInfo)
    (binary_mask0 : Mask) (image_size : Option (Nat × Nat)) (tolerance : ℚ)
    (connectivity : Option Nat)
    (hcrowd : isCrowdTruthy category_info = false) :
    ∃ l, create_annotation_infos libs start_annotation_id image_id category_info
          binary_mask0 image_size tolerance connectivity = Except.ok l ∧
      l.length =
        (decompose (effectiveMask libs binary_mask0 image_size) connectivity).length ∧
      (∀ k, k < l.length →
        l.getD k none =
          create_annotation_info libs (start_annotation_id + k) image_id category_info
            ((decompose (effectiveMask libs binary_mask0 image_size) connectivity).getD k [])
            image_size tolerance none) ∧
      (∀ k rec, k < l.length → l.getD k none = some rec →
        ("id", AnnVal.num (start_annotation_id + k)) ∈ rec) := by
  unfold create_annotation_infos
  rw [if_neg (by rw [hcrowd]; exact Bool.false_ne_true)]
  dsimp only
  refine ⟨_, rfl, by simp, ?_, ?_⟩
  · intro k hk
    simp only [List.length_map, List.length_range] at hk
    rw [getD_map_range, if_pos hk]
  · intro k rec hk hrec
    simp only [List.length_map, List.length_range] at hk
    rw [getD_map_range, if_pos hk] at hrec
    exact create_annotation_info_id_mem libs (start_annotation_id + k) image_id
      category_info _ image_size tolerance none rec hrec

/-- C2 witness: the per-component theorem applied to the concrete
non-crowd call whose single component yields no record. -/
theorem create_annotation_infos_per_component_witness :
    isCrowdTruthy catPlain = false ∧
    (∃ l, create_annotation_infos libsNoContours 5 2 catPlain maskOne none 2 none =
        Except.ok l ∧
      l.length = (decompose (effectiveMask libsNoContours maskOne none) none).length ∧
      (∀ k, k < l.length →
        l.getD k none =
          create_annotation_info libsNoContours (5 + k) 2 catPlain
            ((decompose (effectiveMask libsNoContours maskOne none) none).getD k [])
            none 2 none) ∧
      (∀ k rec, k < l.length → l.getD k none = some rec →
        ("id", AnnVal.num (5 + k)) ∈ rec)) :=
  ⟨rfl, create_annotation_infos_per_component libsNoContours 5 2 catPlain maskOne
    none 2 none rfl⟩

end Pycoco
